import Mathlib

/-!
Verification development for the milkdud torrent-creation pipeline
(repository `concretelabs/milkdud`).

The embedding below follows `torrent.go` (the `package torrent` revision,
whose `Create` drives `buildFromPathList`, `writeFiles` and
`generatePieces`), together with `AddFile` and the state of `torrentFile`.
Byte strings are modelled as `List Nat`, Go `int64` as `Int` where negative
values are representable and as `Nat` where the source guarantees
non-negativity (sizes returned by `os.Stat`, piece lengths).

External collaborators (the Go standard library's `path/filepath.Rel`, the
anacrolix `metainfo` / `bencode` library) are modelled at their documented
interfaces; each such definition carries a comment saying what it models.
-/

namespace Milkdud

/-! ### Paths

A Go file path, after `filepath.Clean`, is an absolute/relative flag plus a
list of segments.  A segment is a byte string.  Separator byte 47 is `/`. -/

/-- A path segment: a list of bytes. -/
abbrev Seg := List Nat

/-- A cleaned Go file path: absoluteness flag plus segments. -/
structure GoPath where
  abs : Bool
  segs : List Seg
  deriving DecidableEq, Repr

/-- The bytes of the segment `..`. -/
def dotdot : Seg := [46, 46]

/-- Core of the lexical model of Go `path/filepath.Rel`: strip the longest
common prefix of base and target segments, then prepend one `..` segment for
every base segment left over.  (Go additionally cleans its inputs and handles
volume names; the model assumes cleaned, volume-free paths.) -/
def relSegs : List Seg → List Seg → List Seg
  | [], ts => ts
  | b :: bs, [] => (b :: bs).map (fun _ => dotdot)
  | b :: bs, t :: ts =>
    if b = t then relSegs bs ts
    else (b :: bs).map (fun _ => dotdot) ++ (t :: ts)

/-- Model of Go `path/filepath.Rel(base, targ)`: fails (returns `none`, which
`AddFile` turns into a panic) exactly when one path is absolute and the other
relative; otherwise produces the relative segment list.  (`Rel` returns the
string `.` when the paths coincide; the model renders `.` as the empty
segment list.) -/
def goRel (base targ : GoPath) : Option (List Seg) :=
  if base.abs = targ.abs then some (relSegs base.segs targ.segs) else none

/-- Model of `filepath.Join(root, relative)` for a relative segment list. -/
def subPath (root : GoPath) (rel : List Seg) : GoPath :=
  ⟨root.abs, root.segs ++ rel⟩

/-! ### The manifest builder: `torrentFile` state and `AddFile`

From `torrent.go`:

    type torrentFile struct {
        totalFileSizeBytes int64
        root               string
        paths              map[string]int64
        files              []metainfo.FileInfo
        ...
    }

    func (tf *torrentFile) AddFile(path string, size int64) {
        relativePath, err := filepath.Rel(tf.root, path)
        if err != nil {
            panic(err)
        }
        tf.paths[relativePath] = size
        tf.totalFileSizeBytes = tf.totalFileSizeBytes + size
        tf.files = append(tf.files, metainfo.FileInfo{
            Length: size, Path: []string{path}, PathUtf8: []string{path},
        })
    }

The `paths` map is modelled as an association list with overwrite-on-insert;
`files` keeps every call in order (duplicates included), each entry holding
the single-element `Path` slice, i.e. the full path passed by the caller. -/

/-- State of a `torrentFile` manifest: running total, the `paths` map
(association list keyed by the relative segment list), and the `files`
slice of `(full path, recorded size)` in call order. -/
structure TorrentState where
  totalFileSizeBytes : Int
  paths : List (List Seg × Int)
  files : List (GoPath × Int)
  deriving DecidableEq, Repr

/-- The state of a freshly constructed `torrentFile` (`New`). -/
def initialState : TorrentState := ⟨0, [], []⟩

/-- Go map assignment `m[k] = v` on the association-list model: overwrite the
existing entry for `k`, else append a new one. -/
def mapInsert (m : List (List Seg × Int)) (k : List Seg) (v : Int) :
    List (List Seg × Int) :=
  match m with
  | [] => [(k, v)]
  | (k', v') :: rest =>
    if k' = k then (k', v) :: rest else (k', v') :: mapInsert rest k v

/-- Go map lookup `m[k]` (the `ok` form). -/
def mapLookup (m : List (List Seg × Int)) (k : List Seg) : Option Int :=
  match m with
  | [] => none
  | (k', v') :: rest => if k' = k then some v' else mapLookup rest k

/-- The keys of the modelled map, in insertion order. -/
def mapKeys (m : List (List Seg × Int)) : List (List Seg) :=
  m.map Prod.fst

/-- Embedding of `(*torrentFile).AddFile`.  `none` models the `panic(err)`
taken when `filepath.Rel` fails: no state is returned to the caller and no
entry is recorded.  Otherwise the entry is recorded unconditionally — there
is no containment or size validation in the source. -/
def addFile (root : GoPath) (st : TorrentState) (p : GoPath) (size : Int) :
    Option TorrentState :=
  match goRel root p with
  | none => none
  | some r =>
    some { totalFileSizeBytes := st.totalFileSizeBytes + size
           paths := mapInsert st.paths r size
           files := st.files ++ [(p, size)] }

/-- A sequence of `AddFile` calls; the first panic aborts the program, so the
whole sequence yields `none`. -/
def addFiles (root : GoPath) (st : TorrentState) :
    List (GoPath × Int) → Option TorrentState
  | [] => some st
  | (p, size) :: rest =>
    match addFile root st p size with
    | none => none
    | some st' => addFiles root st' rest

/-! ### Piece-length selection

`Create` calls `metainfo.ChoosePieceLength(tf.totalFileSizeBytes)`
(third-party library, not part of this repository's sources). -/

/-- Modelled from the spec: `metainfo.ChoosePieceLength` is library code not
under `src/`; the spec (§4.2 PieceLengthSelector) describes it as: start at
16 KiB and, while `totalSize / pieceLength > 1000` and
`pieceLength < 16 MiB`, double `pieceLength`.  This is the loop body. -/
def pieceLoop (totalSize : Nat) (pl : Nat) : Nat :=
  if h : 1000 < totalSize / pl ∧ pl < 16777216 then pieceLoop totalSize (2 * pl)
  else pl
termination_by 16777216 - pl
decreasing_by
  have hpl : 0 < pl := by
    rcases Nat.eq_zero_or_pos pl with h0 | h0
    · subst h0; simp at h
    · exact h0
  omega

/-- Modelled from the spec: the piece-length selector, starting from 16 KiB. -/
def selectPieceLength (totalSize : Nat) : Nat :=
  pieceLoop totalSize 16384

/-- The selector as applied to the Go `int64` running total (which can be
negative after negative `AddFile` sizes): Go integer division of a negative
total by 16384 is non-positive, hence never `> 1000`, so the loop exits at
once — the same result as clamping the total to 0. -/
def selectPieceLengthI (totalSize : Int) : Nat :=
  selectPieceLength totalSize.toNat

/-! ### `generatePieces`

From `torrent.go`:

    func generatePieces(r io.Reader, pieceLength int64, b []byte) ([]byte, error) {
        for {
            h := sha1.New()
            written, err := io.CopyN(h, r, pieceLength)
            if written > 0 {
                b = h.Sum(b)
            }
            if err == io.EOF {
                return b, nil
            }
            if err != nil {
                return b, err
            }
        }
    }

`io.CopyN(h, r, L)` feeds the next `min L (bytes left)` bytes of the stream
to the digest and reports `io.EOF` exactly when fewer than `L` bytes were
available.  The digest function `sha1` is external; it is a parameter `hash`
here.  Go appends each 20-byte digest to the flat slice `b`; the model keeps
the digests as a list (the flat slice is its concatenation).  The stream is
the full byte sequence written to the pipe (the pipe is FIFO and is closed
with `io.EOF` once `writeFiles` returns).  With `pieceLength = 0` the Go
loop never terminates; that branch is unreachable (`Create` rejects a zero
piece length) and the model returns `[]` there. -/

/-- Embedding of `generatePieces` on a fully materialised stream. -/
def generatePieces (hash : List Nat → List Nat) (pieceLength : Nat)
    (s : List Nat) : List (List Nat) :=
  if hs : s = [] then []
  else if hL : pieceLength = 0 then []
  else hash (s.take pieceLength) ::
    generatePieces hash pieceLength (s.drop pieceLength)
termination_by s.length
decreasing_by
  have h1 : 0 < s.length := List.length_pos.mpr hs
  have h2 : 0 < pieceLength := Nat.pos_of_ne_zero hL
  simp only [List.length_drop]
  omega

/-! ### `metainfo.Info` and `buildFromPathList`

`metainfo.Info` (anacrolix library) carries name, piece length, pieces,
the single-file length, the multi-file list and the private flag; `Create`
populates it through `tf.buildFromPathList` and then sorts `info.Files`. -/

/-- One entry of `info.Files`: relative path segments and the length
reported by `os.Stat` (always non-negative). -/
structure FileEntry where
  path : List Seg
  length : Nat
  deriving DecidableEq, Repr

/-- The fields of `metainfo.Info` the pipeline reads or writes. -/
structure InfoState where
  name : List Nat
  pieceLength : Nat
  length : Nat
  files : List FileEntry
  priv : Bool
  deriving DecidableEq, Repr

/-- The bytes of the constant `torrentFsBase = "music"`. -/
def torrentFsBase : List Nat := [109, 117, 115, 105, 99]

/-- Embedding of the loop body of `(*torrentFile).buildFromPathList`,
iterating over `tf.files` in call order.  The disk is `stat : GoPath →
Option Nat` (`os.Stat`: `none` = does not exist; other stat failures are not
modelled).  Every entry appended by `AddFile` has exactly one `Path`
element, so the `len(file.Path) > 1` skip branch is unreachable.  For each
file: a missing path is an error; a path equal to `tf.root` triggers the
single-file branch, which sets `info.Length` and returns early, keeping the
entries accumulated so far; otherwise `filepath.Rel` of the path is appended
to `info.Files` with the stat size. -/
def buildLoop (root : GoPath) (stat : GoPath → Option Nat) :
    List (GoPath × Int) → InfoState → Except String InfoState
  | [], info => .ok info
  | (p, _) :: rest, info =>
    match stat p with
    | none => .error "path doesn't exist"
    | some sz =>
      if p = root then .ok { info with length := sz }
      else
        match goRel root p with
        | none => .error "error getting relative path"
        | some r =>
          buildLoop root stat rest
            { info with files := info.files ++ [⟨r, sz⟩] }

/-- Embedding of `(*torrentFile).buildFromPathList`: sets `info.Name` to the
constant `torrentFsBase`, clears `info.Files`, then runs the loop. -/
def buildFromPathList (root : GoPath) (stat : GoPath → Option Nat)
    (files : List (GoPath × Int)) (info : InfoState) : Except String InfoState :=
  buildLoop root stat files { info with name := torrentFsBase, files := [] }

/-! ### Sorting `info.Files`

`Create` runs

    slices.Sort(info.Files, func(l, r metainfo.FileInfo) bool {
        return strings.Join(l.Path, "/") < strings.Join(r.Path, "/")
    })

Go string `<` is byte-wise lexicographic.  `slices.Sort` (missinggo) wraps
`sort.Slice`; any comparison sort yields the unique list that is sorted
under the induced `≤` whenever elements with equal keys are equal, which is
established for the lists this program builds; the model uses `mergeSort`. -/

/-- Byte-wise lexicographic strict comparison, as Go `string <`. -/
def bytesLt : List Nat → List Nat → Bool
  | [], [] => false
  | [], _ :: _ => true
  | _ :: _, [] => false
  | a :: as, b :: bs =>
    if a < b then true else if b < a then false else bytesLt as bs

/-- The sort key `strings.Join(entry.Path, "/")`. -/
def entryKey (e : FileEntry) : List Nat :=
  List.intercalate [47] e.path

/-- The non-strict order induced by the Go `less` closure. -/
def entryLe (l r : FileEntry) : Bool :=
  !(bytesLt (entryKey r) (entryKey l))

/-- The sorted `info.Files` produced at line 255 of `torrent.go`. -/
def sortFiles (fs : List FileEntry) : List FileEntry :=
  fs.mergeSort entryLe

/-! ### `writeFiles`: the reader worker pool

From `torrent.go` (lines 343–421).  Structural facts mirrored by the model:

* `createWorkerPool` invokes `worker(i, &wg)` as a plain synchronous call
  (no `go`), and `worker` itself blocks in `g.Wait()` until its single
  spawned goroutine finishes.  Hence at most one reader goroutine is ever
  live, and the files handed out over channel `c` are processed strictly in
  the order the allocator sends them — the order of `info.UpvertedFiles()`.
  The only scheduling freedom left is the worker count `runtime.NumCPU()`,
  kept here as the parameter `workers`.
* a worker that hits an error (`os.Open` failure, or `io.CopyN` writing
  fewer than `fi.Length` bytes) returns from its goroutine without calling
  `wg.Done()`, and `createWorkerPool` discards `worker`'s return value; the
  next worker picks up the remaining files from the channel.
* `writeFiles` reaches its `return nil` only if `wg.Wait()` returns, i.e.
  only if every worker called `wg.Done()`; otherwise it blocks forever.

The disk content is `content : GoPath → Option (List Nat)` (`none` =
`os.Open` fails).  `io.CopyN(w, f, fi.Length)` writes
`min fi.Length (file size)` bytes to the pipe and succeeds iff the file
held at least `fi.Length` bytes. -/

/-- The bytes a worker writes to the pipe for one file (everything `CopyN`
copies before success or failure). -/
def fileBytes (content : GoPath → Option (List Nat)) (root : GoPath)
    (fi : FileEntry) : List Nat :=
  match content (subPath root fi.path) with
  | none => []
  | some c => c.take fi.length

/-- Whether the worker body succeeds for one file: the open succeeded and
`CopyN` copied the full `fi.Length` bytes. -/
def fileOk (content : GoPath → Option (List Nat)) (root : GoPath)
    (fi : FileEntry) : Bool :=
  match content (subPath root fi.path) with
  | none => false
  | some c => fi.length ≤ c.length

/-- One worker's goroutine: drain the channel in order until an error or
until the channel is exhausted.  Returns the bytes it wrote to the pipe, the
tasks still undelivered when it stopped, and whether it errored (in which
case it skipped `wg.Done()`). -/
def workerDrain (content : GoPath → Option (List Nat)) (root : GoPath) :
    List FileEntry → List Nat × List FileEntry × Bool
  | [] => ([], [], false)
  | fi :: rest =>
    let bs := fileBytes content root fi
    if fileOk content root fi then
      let r := workerDrain content root rest
      (bs ++ r.1, r.2.1, r.2.2)
    else (bs, rest, true)

/-- `createWorkerPool(workerCnt)`: run the workers one after another (the
calls are synchronous), threading the undelivered tasks.  Returns the byte
stream written to the pipe, the tasks never delivered, and the final
`WaitGroup` counter — the number of workers that skipped `wg.Done()`. -/
def pool (content : GoPath → Option (List Nat)) (root : GoPath) :
    Nat → List FileEntry → List Nat × List FileEntry × Nat
  | 0, ts => ([], ts, 0)
  | n + 1, ts =>
    let r := workerDrain content root ts
    let r' := pool content root n r.2.1
    (r.1 ++ r'.1, r'.2.1, (if r.2.2 then 1 else 0) + r'.2.2)

/-! ### `Create` -/

/-- Model of `metainfo.Info.UpvertedFiles` (anacrolix library, at its
documented interface): in multi-file mode the list `info.Files` itself; with
no `Files`, the single pseudo-file rooted at the torrent root whose length
is `info.Length`. -/
def upvertedFiles (info : InfoState) : List FileEntry :=
  if info.files = [] then [⟨[], info.length⟩] else info.files

/-- Model of `metainfo.Info.TotalLength` (anacrolix library): the sum of the
file lengths in multi-file mode, else `info.Length`. -/
def totalLength (info : InfoState) : Nat :=
  if info.files = [] then info.length
  else (info.files.map FileEntry.length).sum

/-- Lines 243–257 of `Create`: choose the piece length from the running
total, build the info from the path list, and sort `info.Files`. -/
def createInfo (root : GoPath) (stat : GoPath → Option Nat)
    (st : TorrentState) : Except String InfoState :=
  match buildFromPathList root stat st.files
      { name := [], pieceLength := selectPieceLengthI st.totalFileSizeBytes,
        length := 0, files := [], priv := true } with
  | .error e => .error ("error building torrent: " ++ e)
  | .ok info => .ok { info with files := sortFiles info.files }

/-- Embedding of `(*torrentFile).Create` up to the observables the claims
mention: the piece-hash list and the finalized file list.  The outer `none`
models `Create` never returning: when any worker errors, the `WaitGroup`
counter stays positive, `writeFiles` blocks in `wg.Wait()`, the pipe is
never closed and `generatePieces` blocks reading it.  (The subsequent
bencoding, `mi.Write` and the on-disk artifact are functions of the returned
pair and are not modelled separately.) -/
def createModel (hash : List Nat → List Nat) (workers : Nat) (root : GoPath)
    (stat : GoPath → Option Nat) (content : GoPath → Option (List Nat))
    (st : TorrentState) :
    Option (Except String (List (List Nat) × List FileEntry)) :=
  match createInfo root stat st with
  | .error e => some (.error e)
  | .ok info =>
    let info := if info.pieceLength = 0 then
        { info with pieceLength := selectPieceLength (totalLength info) }
      else info
    if info.pieceLength = 0 then some (.error "piece length must be non-zero")
    else
      let r := pool content root workers (upvertedFiles info)
      if r.2.2 ≠ 0 then none
      else some (.ok (generatePieces hash info.pieceLength r.1, info.files))

/-! ### Metainfo, bencoding and the magnet link

`Create` stores `bencode.Marshal(info)` into `tf.mi.InfoBytes`; `comment`,
`creationDate`, `createdBy` and the announce list live on the outer
`metainfo.MetaInfo` value and are never part of `InfoBytes`.
`(*torrentFile).MagnetURL` returns `tf.mi.Magnet(nil, nil).String()`, whose
`xt=urn:btih:` parameter is the hex SHA-1 of `InfoBytes` (anacrolix
`MetaInfo.HashInfoBytes`).  The bencode encoder below follows the canonical
form the spec's serializer contract requires (dictionary keys in sorted
lexicographic order); the SHA-1 digest is the abstract parameter `hash`. -/

/-- The full `metainfo.MetaInfo` value assembled by `New` and `Create`. -/
structure MetaInfo where
  info : InfoState
  pieces : List Nat
  comment : List Nat
  creationDate : Int
  createdBy : List Nat
  announceList : List (List (List Nat))
  deriving DecidableEq, Repr

/-- ASCII decimal digits of a natural number. -/
def natAscii (n : Nat) : List Nat :=
  (Nat.toDigits 10 n).map Char.toNat

/-- Bencoded integer `i<n>e`. -/
def benNat (n : Nat) : List Nat :=
  105 :: natAscii n ++ [101]

/-- Bencoded byte string `<len>:<bytes>`. -/
def benStr (s : List Nat) : List Nat :=
  natAscii s.length ++ 58 :: s

/-- Bencoded file-entry dictionary `d6:lengthi<n>e4:pathl<segs>ee`
(keys `length` < `path` in sorted order). -/
def benFileEntry (e : FileEntry) : List Nat :=
  [100] ++ benStr [108, 101, 110, 103, 116, 104] ++ benNat e.length ++
    benStr [112, 97, 116, 104] ++
    [108] ++ (e.path.map benStr).flatten ++ [101] ++ [101]

/-- The canonical bencoding of the info dictionary, a function of the
`Info` fields and the generated pieces only.  Keys appear in sorted order:
`files`/`length`, `name`, `piece length`, `pieces`, `private`. -/
def bencodeInfo (info : InfoState) (pieces : List Nat) : List Nat :=
  [100] ++
    (if info.files = [] then
      benStr [108, 101, 110, 103, 116, 104] ++ benNat info.length
    else
      benStr [102, 105, 108, 101, 115] ++
        [108] ++ (info.files.map benFileEntry).flatten ++ [101]) ++
    benStr [110, 97, 109, 101] ++ benStr info.name ++
    benStr [112, 105, 101, 99, 101, 32, 108, 101, 110, 103, 116, 104] ++
      benNat info.pieceLength ++
    benStr [112, 105, 101, 99, 101, 115] ++ benStr pieces ++
    benStr [112, 114, 105, 118, 97, 116, 101] ++
      benNat (if info.priv then 1 else 0) ++
  [101]

/-- `mi.InfoBytes` as stored by `Create`. -/
def infoBytes (mi : MetaInfo) : List Nat :=
  bencodeInfo mi.info mi.pieces

/-- The lower-case hex encoding of one byte. -/
def hexByte (b : Nat) : List Nat :=
  let d := fun n => if n < 10 then 48 + n else 87 + n
  [d (b / 16 % 16), d (b % 16)]

/-- The 40-hex identifier in the magnet link's `xt=urn:btih:` parameter:
the hex digest of `InfoBytes`. -/
def magnetXT (hash : List Nat → List Nat) (mi : MetaInfo) : List Nat :=
  ((infoBytes mi |> hash).map hexByte).flatten

/-- The full magnet URI `magnet:?xt=urn:btih:<hex>&dn=<name>&tr=...` built
by `mi.Magnet(nil, nil).String()`, modelled at the anacrolix interface:
identifier, display name, one tracker parameter per announce URL. -/
def magnetURL (hash : List Nat → List Nat) (mi : MetaInfo) : List Nat :=
  ([109, 97, 103, 110, 101, 116, 58, 63, 120, 116, 61, 117, 114, 110, 58,
    98, 116, 105, 104, 58] ++ magnetXT hash mi) ++
  ([38, 100, 110, 61] ++ mi.info.name) ++
  (mi.announceList.flatten.map (fun tr => [38, 116, 114, 61] ++ tr)).flatten

/-! ### Predicates used by the theorem statements -/

/-- The path `p` is strictly inside the root directory: same
absolute/relative kind, the root's segments are a proper prefix of `p`'s. -/
def strictlyUnder (root p : GoPath) : Prop :=
  p.abs = root.abs ∧ p.segs.take root.segs.length = root.segs ∧
    root.segs.length < p.segs.length

instance (root p : GoPath) : Decidable (strictlyUnder root p) := by
  unfold strictlyUnder
  infer_instance

/-- The full content of a manifest file on disk (empty if `os.Open` fails). -/
def fullContent (content : GoPath → Option (List Nat)) (root : GoPath)
    (fi : FileEntry) : List Nat :=
  (content (subPath root fi.path)).getD []

/-- The file exists on disk and its size agrees with the manifest entry. -/
def matchesDisk (content : GoPath → Option (List Nat)) (root : GoPath)
    (fi : FileEntry) : Prop :=
  content (subPath root fi.path) ≠ none ∧
    (fullContent content root fi).length = fi.length

instance (content : GoPath → Option (List Nat)) (root : GoPath)
    (fi : FileEntry) : Decidable (matchesDisk content root fi) := by
  unfold matchesDisk
  infer_instance

/-- The virtual byte stream of the spec: the manifest files' contents
concatenated in manifest order. -/
def manifestStream (content : GoPath → Option (List Nat)) (root : GoPath)
    (fs : List FileEntry) : List Nat :=
  (fs.map (fullContent content root)).flatten

/-- `writeFiles` reaches its `return nil` statement: every worker called
`wg.Done()`, so `wg.Wait()` unblocks.  When this fails, `writeFiles` (and
with it `Create`) blocks forever. -/
def writeFilesReturns (content : GoPath → Option (List Nat)) (root : GoPath)
    (workers : Nat) (fs : List FileEntry) : Prop :=
  (pool content root workers fs).2.2 = 0

instance (content : GoPath → Option (List Nat)) (root : GoPath)
    (workers : Nat) (fs : List FileEntry) :
    Decidable (writeFilesReturns content root workers fs) := by
  unfold writeFilesReturns
  infer_instance

/-- The finalized file list `Create` hands to the hasher and serializer:
`buildFromPathList` followed by the sort. -/
def finalizedList (root : GoPath) (stat : GoPath → Option Nat)
    (st : TorrentState) : Except String (List FileEntry) :=
  (createInfo root stat st).map InfoState.files

/-- The list is ascending, byte-wise, in the joined relative path. -/
def ascendingByPath (fs : List FileEntry) : Prop :=
  fs.Pairwise (fun a b =>
    bytesLt (entryKey a) (entryKey b) = true ∨ entryKey a = entryKey b)

/-- The `info.Files` entry `buildFromPathList` produces for one `AddFile`
call `(path, size)`: the path relative to the root and the `os.Stat` size
(the recorded size is ignored by the source). -/
def entryOf (root : GoPath) (stat : GoPath → Option Nat)
    (c : GoPath × Int) : FileEntry :=
  ⟨c.1.segs.drop root.segs.length, (stat c.1).getD 0⟩

/-- Side conditions under which an `AddFile` call is an ordinary in-tree
file: strictly inside the root, present on disk, and with `/`-free segments
(true of every path `filepath.Join` can produce). -/
def cleanCall (root : GoPath) (stat : GoPath → Option Nat)
    (c : GoPath × Int) : Prop :=
  strictlyUnder root c.1 ∧ stat c.1 ≠ none ∧ ∀ sg ∈ c.1.segs, 47 ∉ sg

instance (root : GoPath) (stat : GoPath → Option Nat) (c : GoPath × Int) :
    Decidable (cleanCall root stat c) := by
  unfold cleanCall
  infer_instance

/-! ## Helper lemmas -/

/-- Invariant of the doubling loop: starting from a power of two of the form
`16384 * 2 ^ k` with `k ≤ 10`, the result stays of that form and never
shrinks. -/
theorem pieceLoop_spec (t : Nat) : ∀ pl, (∃ k, k ≤ 10 ∧ pl = 16384 * 2 ^ k) →
    ∃ j, j ≤ 10 ∧ pieceLoop t pl = 16384 * 2 ^ j ∧ pl ≤ pieceLoop t pl := by
  intro pl
  induction pl using pieceLoop.induct t with
  | case1 x h ih =>
    rintro ⟨k, hk, rfl⟩
    have hk10 : k < 10 := by
      by_contra hc
      have : k = 10 := by omega
      subst this
      norm_num at h
    obtain ⟨j, hj, hres, hle⟩ := ih ⟨k + 1, by omega, by ring⟩
    refine ⟨j, hj, ?_, ?_⟩
    · rw [pieceLoop, dif_pos h]
      exact hres
    · rw [pieceLoop, dif_pos h]
      omega
  | case2 x h =>
    rintro ⟨k, hk, rfl⟩
    exact ⟨k, hk, by rw [pieceLoop, dif_neg h], by rw [pieceLoop, dif_neg h]⟩

theorem generatePieces_nil (h : List Nat → List Nat) (L : Nat) :
    generatePieces h L [] = [] := by
  rw [generatePieces]
  simp

theorem generatePieces_cons (h : List Nat → List Nat) (L : Nat) (s : List Nat)
    (hs : s ≠ []) (hL : L ≠ 0) :
    generatePieces h L s = h (s.take L) :: generatePieces h L (s.drop L) := by
  rw [generatePieces, dif_neg hs, dif_neg hL]

theorem generatePieces_ne_nil (h : List Nat → List Nat) (L : Nat) (s : List Nat)
    (hs : s ≠ []) (hL : L ≠ 0) : generatePieces h L s ≠ [] := by
  rw [generatePieces_cons h L s hs hL]
  simp

/-- The number of digests is the ceiling of `length / L`. -/
theorem generatePieces_length (h : List Nat → List Nat) (L : Nat) (hL : 0 < L) :
    ∀ s : List Nat, (generatePieces h L s).length = (s.length + L - 1) / L := by
  intro s
  induction s using generatePieces.induct h L with
  | case1 => simp [generatePieces_nil, Nat.div_eq_of_lt, hL]
  | case2 s hs hL0 => omega
  | case3 s hs hL0 ih =>
    rw [generatePieces_cons h L s hs hL0]
    simp only [List.length_cons, ih, List.length_drop]
    have hpos : 0 < s.length := List.length_pos.mpr hs
    rcases Nat.lt_or_ge s.length (L + 1) with hlt | hge
    · have h1 : s.length - L = 0 := by omega
      rw [h1]
      have h3 : (0 + L - 1) / L = 0 := Nat.div_eq_of_lt (by omega)
      have h4 : (s.length + L - 1) / L = 1 :=
        Nat.div_eq_of_lt_le (by omega) (by omega)
      omega
    · have h1 : s.length - L + L - 1 = s.length - 1 := by omega
      have h2 : s.length + L - 1 = (s.length - 1) + L := by omega
      rw [h1, h2, Nat.add_div_right _ hL]

theorem getLast?_cons_ne {α : Type} (a : α) (l : List α) (hl : l ≠ []) :
    (a :: l).getLast? = l.getLast? := by
  cases l with
  | nil => exact absurd rfl hl
  | cons b t => simp

/-- The final digest hashes exactly the last `S mod L` bytes of the stream
(`L` bytes when `L` divides `S`). -/
theorem generatePieces_last (h : List Nat → List Nat) (L : Nat) (hL : 0 < L) :
    ∀ s : List Nat, s ≠ [] →
    (generatePieces h L s).getLast? =
      some (h (s.drop (s.length -
        (if s.length % L = 0 then L else s.length % L)))) := by
  intro s
  induction s using generatePieces.induct h L with
  | case1 => intro hc; exact absurd rfl hc
  | case2 s hs hL0 => omega
  | case3 s hs hL0 ih =>
    intro _
    have hpos : 0 < s.length := List.length_pos.mpr hs
    rw [generatePieces_cons h L s hs hL0]
    rcases eq_or_ne (s.drop L) [] with hdrop | hdrop
    · have hNL : s.length ≤ L := by
        have := congrArg List.length hdrop
        simp only [List.length_drop, List.length_nil] at this
        omega
      rw [hdrop, generatePieces_nil]
      rcases eq_or_ne (s.length % L) 0 with hmod | hmod
      · have hdvd : L ∣ s.length := Nat.dvd_of_mod_eq_zero hmod
        have hLN : L ≤ s.length := Nat.le_of_dvd hpos hdvd
        have hEq : s.length = L := le_antisymm hNL hLN
        rw [if_pos hmod, hEq, Nat.sub_self, List.drop_zero,
          List.take_of_length_le (le_of_eq hEq)]
        rfl
      · have hlt : s.length < L := by
          rcases Nat.lt_or_ge s.length L with hc | hc
          · exact hc
          · have : s.length = L := le_antisymm hNL hc
            rw [this, Nat.mod_self] at hmod
            exact absurd rfl hmod
        rw [if_neg hmod, Nat.mod_eq_of_lt hlt, Nat.sub_self, List.drop_zero,
          List.take_of_length_le hNL]
        rfl
    · have hNL : L < s.length := by
        have h2 := List.length_pos.mpr hdrop
        simp only [List.length_drop] at h2
        omega
      rw [getLast?_cons_ne _ _ (generatePieces_ne_nil h L _ hdrop hL0), ih hdrop]
      have hmodeq : s.length % L = (s.length - L) % L :=
        Nat.mod_eq_sub_mod (le_of_lt hNL)
      simp only [List.length_drop]
      rcases eq_or_ne (s.length % L) 0 with hmod | hmod
      · have hmod' : (s.length - L) % L = 0 := by omega
        rw [if_pos hmod', if_pos hmod]
        have hdvd : L ∣ s.length := Nat.dvd_of_mod_eq_zero hmod
        have h2L : 2 * L ≤ s.length := by
          have hq := Nat.div_add_mod s.length L
          rw [hmod, Nat.add_zero] at hq
          have hq2 : 2 ≤ s.length / L := by
            by_contra hc
            have hq1 : s.length / L ≤ 1 := by omega
            have : s.length ≤ L * 1 := by
              calc s.length = L * (s.length / L) := hq.symm
              _ ≤ L * 1 := Nat.mul_le_mul_left L hq1
            omega
          calc 2 * L = L * 2 := by ring
          _ ≤ L * (s.length / L) := Nat.mul_le_mul_left L hq2
          _ = s.length := hq
        rw [List.drop_drop]
        have hidx : L + (s.length - L - L) = s.length - L := by omega
        rw [hidx]
      · have hmod' : (s.length - L) % L ≠ 0 := by omega
        have hle : s.length % L ≤ s.length - L := by
          rw [hmodeq]
          exact Nat.mod_le _ _
        rw [if_neg hmod', if_neg hmod, List.drop_drop, ← hmodeq]
        have hidx : L + (s.length - L - s.length % L) = s.length - s.length % L := by
          omega
        rw [hidx]

/-! ## Claim C7 — piece-length selection -/

/-- C7: for every `totalSize`, `selectPieceLength totalSize` is the result
of starting at 16 KiB and doubling while `totalSize / pieceLength > 1000`
and `pieceLength < 16 MiB` (definitional, first conjunct); the result is a
power of two in `[16 KiB, 16 MiB]`; and `selectPieceLength 0 = 16 KiB`
with no division-by-zero failure (Go division `0 / 16384 = 0` exits the
loop at once). -/
theorem claim7_selectPieceLength (t : Nat) :
    selectPieceLength t = pieceLoop t 16384 ∧
    (∃ j, j ≤ 10 ∧ selectPieceLength t = 16384 * 2 ^ j) ∧
    16384 ≤ selectPieceLength t ∧ selectPieceLength t ≤ 16777216 ∧
    selectPieceLength 0 = 16384 := by
  obtain ⟨j, hj, hres, hle⟩ := pieceLoop_spec t 16384 ⟨0, by omega, by norm_num⟩
  refine ⟨rfl, ⟨j, hj, hres⟩, ?_, ?_, ?_⟩
  · exact hle
  · show pieceLoop t 16384 ≤ 16777216
    rw [hres]
    calc 16384 * 2 ^ j ≤ 16384 * 2 ^ 10 :=
      Nat.mul_le_mul_left _ (Nat.pow_le_pow_right (by omega) hj)
    _ = 16777216 := by norm_num
  · show pieceLoop 0 16384 = 16384
    rw [pieceLoop]
    norm_num

/-! ## Claim C4 — piece accounting -/

/-- C4: for a stream of `S` bytes and piece length `L > 0`, the generator
produces exactly `ceil(S / L)` digests (stated both as `(S + L - 1) / L`
and by the two mod cases, so an exact multiple yields no extra empty
piece), and for a non-empty stream the final digest covers exactly the last
`S mod L` bytes when `S mod L ≠ 0`, else the last `L` bytes. -/
theorem claim4_pieceAccounting (h : List Nat → List Nat) (L : Nat)
    (s : List Nat) (hL : 0 < L) :
    (generatePieces h L s).length = (s.length + L - 1) / L ∧
    (s.length % L = 0 → (generatePieces h L s).length = s.length / L) ∧
    (s.length % L ≠ 0 → (generatePieces h L s).length = s.length / L + 1) ∧
    (s ≠ [] →
      (generatePieces h L s).getLast? =
        some (h (s.drop (s.length -
          (if s.length % L = 0 then L else s.length % L)))) ∧
      (s.drop (s.length -
          (if s.length % L = 0 then L else s.length % L))).length =
        (if s.length % L = 0 then L else s.length % L)) := by
  have hlen := generatePieces_length h L hL s
  have hq := Nat.div_add_mod s.length L
  refine ⟨hlen, ?_, ?_, ?_⟩
  · intro hmod
    have hS : s.length + L - 1 = L * (s.length / L) + (L - 1) := by omega
    rw [hlen, hS, Nat.mul_add_div hL,
      Nat.div_eq_of_lt (show L - 1 < L by omega)]
    omega
  · intro hmod
    have hmodlt : s.length % L < L := Nat.mod_lt _ hL
    have hS : s.length + L - 1 = L * (s.length / L) + (L + (s.length % L - 1)) := by
      omega
    have h1 : (L + (s.length % L - 1)) / L = 1 :=
      Nat.div_eq_of_lt_le (by omega) (by omega)
    rw [hlen, hS, Nat.mul_add_div hL, h1]
  · intro hs
    refine ⟨generatePieces_last h L hL s hs, ?_⟩
    have hpos : 0 < s.length := List.length_pos.mpr hs
    rcases eq_or_ne (s.length % L) 0 with hmod | hmod
    · have hLle : L ≤ s.length :=
        Nat.le_of_dvd hpos (Nat.dvd_of_mod_eq_zero hmod)
      rw [if_pos hmod, List.length_drop]
      omega
    · rw [if_neg hmod, List.length_drop]
      have : s.length % L ≤ s.length := Nat.mod_le _ _
      omega

/-- Witness for C4 at a concrete input: a 5-byte stream with `L = 3`
yields 2 digests. -/
theorem claim4_witness :
    (generatePieces (fun l => l) 3 [0, 1, 2, 3, 4]).length = 2 := by
  have h := claim4_pieceAccounting (fun l => l) 3 [0, 1, 2, 3, 4] (by decide)
  simpa using h.1

/-! ## Map-model lemmas -/

theorem mapLookup_mapInsert (m : List (List Seg × Int)) (k : List Seg) (v : Int) :
    mapLookup (mapInsert m k v) k = some v := by
  induction m with
  | nil => simp [mapInsert, mapLookup]
  | cons e rest ih =>
    obtain ⟨k', v'⟩ := e
    by_cases hk : k' = k
    · simp [mapInsert, mapLookup, hk]
    · simp [mapInsert, mapLookup, hk, ih]

theorem mapKeys_mapInsert (m : List (List Seg × Int)) (k : List Seg) (v : Int) :
    mapKeys (mapInsert m k v) =
      if k ∈ mapKeys m then mapKeys m else mapKeys m ++ [k] := by
  induction m with
  | nil => simp [mapInsert, mapKeys]
  | cons e rest ih =>
    obtain ⟨k', v'⟩ := e
    by_cases hk : k' = k
    · simp [mapInsert, mapKeys, hk]
    · have hne : ¬k = k' := fun hc => hk hc.symm
      simp only [mapInsert, if_neg hk, mapKeys, List.map_cons, List.mem_cons,
        hne, false_or]
      simp only [mapKeys] at ih
      rw [ih]
      by_cases hmem : k ∈ rest.map Prod.fst
      · simp [hmem]
      · simp [hmem]

theorem mapKeys_nodup_mapInsert (m : List (List Seg × Int)) (k : List Seg)
    (v : Int) (hm : (mapKeys m).Nodup) : (mapKeys (mapInsert m k v)).Nodup := by
  rw [mapKeys_mapInsert]
  by_cases hmem : k ∈ mapKeys m
  · simpa [hmem] using hm
  · simp only [hmem, if_false]
    rw [List.nodup_append]
    exact ⟨hm, List.nodup_singleton k, by simpa using hmem⟩

theorem mapInsert_fresh (m : List (List Seg × Int)) (k : List Seg) (v : Int)
    (hmem : k ∉ mapKeys m) : mapInsert m k v = m ++ [(k, v)] := by
  induction m with
  | nil => simp [mapInsert]
  | cons e rest ih =>
    obtain ⟨k', v'⟩ := e
    simp only [mapKeys, List.map_cons, List.mem_cons] at hmem
    push_neg at hmem
    have hk : ¬k' = k := fun hc => hmem.1 hc.symm
    simp [mapInsert, hk, ih (by simpa [mapKeys] using hmem.2)]

/-- Every successful `AddFile` records the relative key computed by
`filepath.Rel`. -/
theorem addFile_some (root : GoPath) (st : TorrentState) (p : GoPath)
    (size : Int) (r : List Seg) (hrel : goRel root p = some r) :
    addFile root st p size = some
      { totalFileSizeBytes := st.totalFileSizeBytes + size
        paths := mapInsert st.paths r size
        files := st.files ++ [(p, size)] } := by
  unfold addFile
  rw [hrel]

/-- Invariant carried by any successful `addFiles` run: key uniqueness in
the `paths` map is preserved and the running total accumulates every call's
size. -/
theorem addFiles_invariant (root : GoPath) : ∀ (calls : List (GoPath × Int))
    (st st' : TorrentState), addFiles root st calls = some st' →
    ((mapKeys st.paths).Nodup → (mapKeys st'.paths).Nodup) ∧
    st'.totalFileSizeBytes =
      st.totalFileSizeBytes + (calls.map Prod.snd).sum := by
  intro calls
  induction calls with
  | nil =>
    intro st st' hadd
    simp only [addFiles] at hadd
    cases hadd
    simp
  | cons c rest ih =>
    intro st st' hadd
    obtain ⟨p, size⟩ := c
    simp only [addFiles] at hadd
    cases hrel : goRel root p with
    | none => rw [addFile, hrel] at hadd; cases hadd
    | some r =>
      rw [addFile_some root st p size r hrel] at hadd
      obtain ⟨hnodup, htot⟩ := ih _ _ hadd
      constructor
      · intro h0
        exact hnodup (mapKeys_nodup_mapInsert _ _ _ h0)
      · rw [htot]
        simp only [List.map_cons, List.sum_cons]
        ring

/-- When the relative keys of the calls are fresh and pairwise distinct,
`addFiles` appends one map entry per call. -/
theorem addFiles_fresh (root : GoPath) : ∀ (calls : List (GoPath × Int))
    (st st' : TorrentState), addFiles root st calls = some st' →
    (∀ c ∈ calls, relSegs root.segs c.1.segs ∉ mapKeys st.paths) →
    (calls.map (fun c => relSegs root.segs c.1.segs)).Nodup →
    st'.paths = st.paths ++
      calls.map (fun c => (relSegs root.segs c.1.segs, c.2)) := by
  intro calls
  induction calls with
  | nil =>
    intro st st' hadd _ _
    simp only [addFiles] at hadd
    cases hadd
    simp
  | cons c rest ih =>
    intro st st' hadd hfresh hnodup
    obtain ⟨p, size⟩ := c
    simp only [addFiles] at hadd
    cases hrel : goRel root p with
    | none => rw [addFile, hrel] at hadd; cases hadd
    | some r =>
      have hr : r = relSegs root.segs p.segs := by
        unfold goRel at hrel
        by_cases hab : root.abs = p.abs
        · rw [if_pos hab] at hrel
          exact (Option.some_injective _ hrel).symm
        · rw [if_neg hab] at hrel
          cases hrel
      subst hr
      rw [addFile_some root st p size _ hrel] at hadd
      have hkey : relSegs root.segs p.segs ∉ mapKeys st.paths :=
        hfresh (p, size) (by simp)
      have hins : mapInsert st.paths (relSegs root.segs p.segs) size =
          st.paths ++ [(relSegs root.segs p.segs, size)] :=
        mapInsert_fresh _ _ _ hkey
      simp only [List.map_cons, List.nodup_cons] at hnodup
      have hrest := ih _ _ hadd ?_ hnodup.2
      · rw [hrest]
        simp only [hins]
        simp [List.append_assoc]
      · intro c hc
        simp only [hins, mapKeys, List.map_append]
        simp only [List.mem_append]
        push_neg
        constructor
        · exact hfresh c (by simp [hc])
        · simp only [List.map_cons, List.map_nil, List.mem_singleton]
          intro hcontra
          exact hnodup.1 (hcontra ▸ List.mem_map_of_mem _ hc)

/-! ## Claim C10 — `AddFile` panics when `filepath.Rel` fails -/

/-- C10: whenever `filepath.Rel(tf.root, path)` fails, `AddFile` panics:
no state is returned to the caller (the `none` of the embedding models the
`panic(err)`) and no entry is recorded — the public interface yields no
failure value. -/
theorem claim10_addFilePanics (root p : GoPath) (st : TorrentState)
    (size : Int) (hrel : goRel root p = none) :
    addFile root st p size = none := by
  unfold addFile
  rw [hrel]

/-- Witness for C10: an absolute root with a relative path makes
`filepath.Rel` fail, and `AddFile` panics. -/
theorem claim10_witness :
    addFile ⟨true, [[97]]⟩ initialState ⟨false, [[98]]⟩ 7 = none :=
  claim10_addFilePanics ⟨true, [[97]]⟩ ⟨false, [[98]]⟩ initialState 7 (by decide)

/-! ## Claim C6 — `addFile` validation -/

/-- Counterexample to C6: the call `AddFile` with the absolute path `/b`
under root `/a` (not inside the root) and the negative size `-5` does not
fail with any `InvalidPathError` and does not leave the manifest unchanged;
it records the entry under the parent-directory relative path `../b` and
adds the negative size to the running total. -/
theorem claim6_counterexample :
    addFile ⟨true, [[97]]⟩ initialState ⟨true, [[98]]⟩ (-5) =
      some ⟨-5, [([[46, 46], [98]], -5)], [(⟨true, [[98]]⟩, -5)]⟩ := by
  decide

/-- C6 as amended: `AddFile` performs no containment or size validation.
Whenever `filepath.Rel(root, path)` succeeds — including for paths outside
the root, whose relative key keeps parent-directory (`..`) segments — the
entry is recorded under that key with the given size (negative sizes
included) and the size is added to the running total; there is no
`InvalidPathError`.  Only a `filepath.Rel` failure aborts the call, by
panicking (claim C10). -/
theorem claim6_addFileNoValidation (root : GoPath) (st : TorrentState)
    (p : GoPath) (size : Int) (r : List Seg) (hrel : goRel root p = some r) :
    addFile root st p size = some
      { totalFileSizeBytes := st.totalFileSizeBytes + size
        paths := mapInsert st.paths r size
        files := st.files ++ [(p, size)] } ∧
    (addFile root st p size).map
      (fun st' => mapLookup st'.paths r) = some (some size) := by
  refine ⟨addFile_some root st p size r hrel, ?_⟩
  rw [addFile_some root st p size r hrel]
  simp [mapLookup_mapInsert]

/-- Witness for C6 (amended) at a concrete input: file `/a/c` of size 3
under root `/a` is recorded under key `c`. -/
theorem claim6_witness :
    (addFile ⟨true, [[97]]⟩ initialState ⟨true, [[97], [99]]⟩ 3).map
      (fun st' => mapLookup st'.paths [[99]]) = some (some 3) :=
  (claim6_addFileNoValidation ⟨true, [[97]]⟩ initialState ⟨true, [[97], [99]]⟩
    3 [[99]] (by decide)).2

/-! ## Claim C9 — manifest state invariant -/

/-- Counterexample to C9: adding the same path twice leaves one map entry
of size 5 but a running total of 10 — the recorded total does not equal the
sum of the sizes of the recorded entries. -/
theorem claim9_counterexample :
    addFiles ⟨true, [[97]]⟩ initialState
        [(⟨true, [[97], [99]]⟩, 5), (⟨true, [[97], [99]]⟩, 5)] =
      some ⟨10, [([[99]], 5)],
        [(⟨true, [[97], [99]]⟩, 5), (⟨true, [[97], [99]]⟩, 5)]⟩ ∧
    ((10 : Int) ≠ ([([[99]], (5 : Int))].map Prod.snd).sum) := by
  constructor
  · decide
  · decide

/-- C9 as amended: in every manifest state reachable by `addFile` calls the
relative paths in the `paths` map are pairwise distinct, and the recorded
total equals the sum of the sizes over all calls — which equals the sum
over the recorded entries only when no relative path is added twice
(re-adding a path keeps a single map entry but double-counts its size in
the total, as the counterexample shows). -/
theorem claim9_manifestInvariant (root : GoPath) (calls : List (GoPath × Int))
    (st' : TorrentState) (hadd : addFiles root initialState calls = some st') :
    (mapKeys st'.paths).Nodup ∧
    st'.totalFileSizeBytes = (calls.map Prod.snd).sum ∧
    ((calls.map (fun c => relSegs root.segs c.1.segs)).Nodup →
      st'.totalFileSizeBytes = (st'.paths.map Prod.snd).sum) := by
  obtain ⟨hnodup, htot⟩ := addFiles_invariant root calls initialState st' hadd
  refine ⟨hnodup (by simp [initialState, mapKeys]), ?_, ?_⟩
  · rw [htot]
    simp [initialState]
  · intro hdist
    have hpaths := addFiles_fresh root calls initialState st' hadd
      (by intro c _; simp [initialState, mapKeys]) hdist
    rw [htot, hpaths]
    simp only [initialState, List.nil_append, List.map_map]
    have hcomp :
        (Prod.snd ∘ fun c : GoPath × Int => (relSegs root.segs c.1.segs, c.2)) =
          Prod.snd := rfl
    rw [hcomp]
    simp

/-! ## Worker-pool lemmas -/

/-- A file that matches the disk is read successfully and contributes its
whole content. -/
theorem matchesDisk_fileOk (content : GoPath → Option (List Nat))
    (root : GoPath) (fi : FileEntry) (hm : matchesDisk content root fi) :
    fileOk content root fi = true ∧
    fileBytes content root fi = fullContent content root fi := by
  obtain ⟨hne, hlen⟩ := hm
  cases hc : content (subPath root fi.path) with
  | none => exact absurd hc hne
  | some c =>
    rw [fullContent, hc] at hlen
    simp only [Option.getD_some] at hlen
    constructor
    · rw [fileOk, hc]
      simp [hlen]
    · rw [fileBytes, hc, fullContent, hc]
      simp [← hlen]

/-- A worker that never fails drains the whole channel and writes the files'
bytes in order. -/
theorem workerDrain_ok (content : GoPath → Option (List Nat)) (root : GoPath) :
    ∀ fs : List FileEntry, (∀ fi ∈ fs, fileOk content root fi = true) →
    workerDrain content root fs =
      ((fs.map (fileBytes content root)).flatten, [], false) := by
  intro fs
  induction fs with
  | nil => intro _; rfl
  | cons fi rest ih =>
    intro hok
    rw [workerDrain]
    simp only [hok fi (by simp), if_true]
    rw [ih (fun f hf => hok f (by simp [hf]))]
    simp

/-- Workers given an empty channel do nothing. -/
theorem pool_nil (content : GoPath → Option (List Nat)) (root : GoPath) :
    ∀ n : Nat, pool content root n [] = ([], [], 0) := by
  intro n
  induction n with
  | zero => rfl
  | succ k ih =>
    rw [pool]
    simp only [workerDrain]
    rw [ih]
    simp

/-- With at least one worker and error-free reads, the pool writes exactly
the concatenation of the files' bytes, delivers every task, and every worker
reaches `wg.Done()` — for every pool size. -/
theorem pool_ok (content : GoPath → Option (List Nat)) (root : GoPath)
    (fs : List FileEntry) (n : Nat) (hn : 0 < n)
    (hok : ∀ fi ∈ fs, fileOk content root fi = true) :
    pool content root n fs =
      ((fs.map (fileBytes content root)).flatten, [], 0) := by
  cases n with
  | zero => omega
  | succ k =>
    rw [pool, workerDrain_ok content root fs hok, pool_nil]
    simp

/-! ## Claim C1 — ordered, deterministic piece hashing -/

/-- C1: for every manifest and piece length, the byte stream entering the
hasher is the concatenation of the manifest files' bytes in manifest order,
and the pipeline returns the identical piece-hash list for every worker-pool
size.  The scheduling argument is structural: `createWorkerPool` calls
`worker(i, &wg)` synchronously and `worker` blocks in `g.Wait()`, so at most
one reader goroutine is ever live and the single `io.Pipe` writer emits
files in allocator (manifest) order; the worker count is the only free
parameter, and the output does not depend on it. -/
theorem claim1_orderedHasherDeterministic (h : List Nat → List Nat) (L : Nat)
    (content : GoPath → Option (List Nat)) (root : GoPath)
    (fs : List FileEntry) (n m : Nat) (hn : 0 < n) (hm : 0 < m)
    (hok : ∀ fi ∈ fs, matchesDisk content root fi) :
    (pool content root n fs).1 = manifestStream content root fs ∧
    writeFilesReturns content root n fs ∧
    generatePieces h L (pool content root n fs).1 =
      generatePieces h L (pool content root m fs).1 := by
  have hok' : ∀ fi ∈ fs, fileOk content root fi = true :=
    fun fi hfi => (matchesDisk_fileOk content root fi (hok fi hfi)).1
  have hbytes : fs.map (fileBytes content root) =
      fs.map (fullContent content root) :=
    List.map_congr_left
      (fun fi hfi => (matchesDisk_fileOk content root fi (hok fi hfi)).2)
  have hpn := pool_ok content root fs n hn hok'
  have hpm := pool_ok content root fs m hm hok'
  refine ⟨?_, ?_, ?_⟩
  · rw [hpn, manifestStream, hbytes]
  · rw [writeFilesReturns, hpn]
  · rw [hpn, hpm]

/-- Witness for C1 at a concrete two-file manifest, pool sizes 1 and 3. -/
theorem claim1_witness :
    (pool
        (fun p => if p = ⟨true, [[114], [97]]⟩ then some [10, 11]
          else if p = ⟨true, [[114], [98]]⟩ then some [12] else none)
        ⟨true, [[114]]⟩ 1 [⟨[[97]], 2⟩, ⟨[[98]], 1⟩]).1 = [10, 11, 12] ∧
    generatePieces (fun l => l) 2
        (pool
          (fun p => if p = ⟨true, [[114], [97]]⟩ then some [10, 11]
            else if p = ⟨true, [[114], [98]]⟩ then some [12] else none)
          ⟨true, [[114]]⟩ 1 [⟨[[97]], 2⟩, ⟨[[98]], 1⟩]).1 =
      generatePieces (fun l => l) 2
        (pool
          (fun p => if p = ⟨true, [[114], [97]]⟩ then some [10, 11]
            else if p = ⟨true, [[114], [98]]⟩ then some [12] else none)
          ⟨true, [[114]]⟩ 3 [⟨[[97]], 2⟩, ⟨[[98]], 1⟩]).1 := by
  have H := claim1_orderedHasherDeterministic (fun l => l) 2
    (fun p => if p = ⟨true, [[114], [97]]⟩ then some [10, 11]
      else if p = ⟨true, [[114], [98]]⟩ then some [12] else none)
    ⟨true, [[114]]⟩ [⟨[[97]], 2⟩, ⟨[[98]], 1⟩] 1 3
    (by decide) (by decide) (by decide)
  exact ⟨H.1.trans (by decide), H.2.2⟩

/-! ## Claim C2 — failure semantics of the pipeline -/

unseal pieceLoop List.merge List.mergeSort in
/-- C2 (the claim is right, the code is wrong): on a mid-pipeline read
failure the operation is supposed to fail as a whole with a
`FileReadError{path, cause}`.  The workers do build such error values
(`fmt.Errorf("error opening %v: %s", fi, err)`), and `Create` is plumbed to
receive them (`pw.CloseWithError(err)`, the `genErr` check) — but
`createWorkerPool` discards `worker`'s return value, and the erroring
goroutine skips `wg.Done()`.  Evaluating the model at a two-file manifest
whose second file fails to open: the pipe receives only the first file's
bytes, the worker error is dropped (the pool result keeps no error value),
the final `WaitGroup` counter is 1, so `wg.Wait()` — and with it `Create` —
blocks forever and no `FileReadError` is ever returned (and no artifact is
written).  The hypothesis-free equalities below evaluate the embedding at
that failing input. -/
theorem claim2_readFailureDropped (h : List Nat → List Nat) :
    pool
        (fun p => if p = ⟨true, [[114], [97]]⟩ then some [10, 11] else none)
        ⟨true, [[114]]⟩ 2 [⟨[[97]], 2⟩, ⟨[[98]], 3⟩] = ([10, 11], [], 1) ∧
    ¬ writeFilesReturns
        (fun p => if p = ⟨true, [[114], [97]]⟩ then some [10, 11] else none)
        ⟨true, [[114]]⟩ 2 [⟨[[97]], 2⟩, ⟨[[98]], 3⟩] ∧
    createModel h 2 ⟨true, [[114]]⟩
        (fun p => if p = ⟨true, [[114], [97]]⟩ then some 2
          else if p = ⟨true, [[114], [98]]⟩ then some 3 else none)
        (fun p => if p = ⟨true, [[114], [97]]⟩ then some [10, 11] else none)
        ⟨5, [([[97]], 2), ([[98]], 3)],
          [(⟨true, [[114], [97]]⟩, 2), (⟨true, [[114], [98]]⟩, 3)]⟩ = none := by
  exact ⟨by decide, by decide, by rfl⟩

/-- Witness for C9 (amended) at a concrete two-call sequence with distinct
paths: the map keys are distinct and the total matches the call sum. -/
theorem claim9_witness :
    (mapKeys [([[99]], (5 : Int)), ([[100]], (7 : Int))]).Nodup :=
  (claim9_manifestInvariant ⟨true, [[97]]⟩
    [(⟨true, [[97], [99]]⟩, 5), (⟨true, [[97], [100]]⟩, 7)]
    ⟨12, [([[99]], 5), ([[100]], 7)],
      [(⟨true, [[97], [99]]⟩, 5), (⟨true, [[97], [100]]⟩, 7)]⟩
    (by decide)).1

/-! ## Claim C8 — magnet identifier stability -/

/-- C8: the magnet identifier (`xt=urn:btih:` parameter) is the digest of
`InfoBytes = bencode.Marshal(info)` alone; `comment`, `creationDate`,
`createdBy` and the announce list live on the outer `MetaInfo` value and
never enter `InfoBytes`.  Hence two `MetaInfo` values agreeing on
`name, pieceLength, files, private` (the `info` component) and on the piece
list, but differing in comment, creation time or announce list, produce the
same identifier, for every digest function. -/
theorem claim8_magnetStability (hash : List Nat → List Nat)
    (m1 m2 : MetaInfo) (hinfo : m1.info = m2.info)
    (hpieces : m1.pieces = m2.pieces) :
    magnetXT hash m1 = magnetXT hash m2 := by
  unfold magnetXT infoBytes
  rw [hinfo, hpieces]

/-- Witness for C8: two concrete `MetaInfo` values sharing the info
dictionary but with different comment, creation date and announce list have
equal identifiers while their full magnet URLs differ (the tracker
parameters differ). -/
theorem claim8_witness :
    magnetXT (fun l => [l.length % 256])
        ⟨⟨[109], 16384, 0, [⟨[[97]], 2⟩], true⟩, [1, 2], [99], 100, [],
          [[[116, 49]]]⟩ =
      magnetXT (fun l => [l.length % 256])
        ⟨⟨[109], 16384, 0, [⟨[[97]], 2⟩], true⟩, [1, 2], [98, 98], 200, [],
          [[[116, 50]]]⟩ ∧
    magnetURL (fun l => [l.length % 256])
        ⟨⟨[109], 16384, 0, [⟨[[97]], 2⟩], true⟩, [1, 2], [99], 100, [],
          [[[116, 49]]]⟩ ≠
      magnetURL (fun l => [l.length % 256])
        ⟨⟨[109], 16384, 0, [⟨[[97]], 2⟩], true⟩, [1, 2], [98, 98], 200, [],
          [[[116, 50]]]⟩ :=
  ⟨claim8_magnetStability (fun l => [l.length % 256]) _ _ rfl rfl, by decide⟩

/-! ## Claim C5 — empty manifest -/

/-- There is no zero piece length: the selector starts at 16384. -/
theorem selectPieceLength_pos (t : Nat) : 16384 ≤ selectPieceLength t := by
  obtain ⟨j, hj, hres, hle⟩ := pieceLoop_spec t 16384 ⟨0, by omega, by norm_num⟩
  exact hle

/-- The selector on a zero total returns the 16 KiB minimum at once. -/
theorem selectPieceLength_zero : selectPieceLength 0 = 16384 := by
  rw [selectPieceLength, pieceLoop]
  norm_num

unseal pieceLoop List.merge List.mergeSort generatePieces in
/-- Counterexample to C5: `Create` on a manifest with zero files does not
fail — there is no `EmptyManifestError` anywhere in the code.  The piece
hasher is invoked on the empty stream (the pseudo single-file of length 0
rooted at the torrent root, which `io.CopyN` with `n = 0` reads without
touching the directory handle) and `Create` succeeds with an empty piece
list and an empty file list. -/
theorem claim5_counterexample :
    createModel (fun l => l) 2 ⟨true, [[109]]⟩ (fun _ => none)
        (fun p => if p = ⟨true, [[109]]⟩ then some [] else none)
        initialState = some (.ok ([], [])) := by
  rfl

/-- C5 as amended: finalizing an empty manifest does not fail and no
`EmptyManifestError` exists; `Create` selects the 16 KiB piece length from
the zero total, runs the worker pool over the single zero-length pseudo
file, feeds the empty stream to `generatePieces`, and returns success with
an empty piece-hash list (the CLI caller, not `Create`, skips torrent
creation when the total size is zero). -/
theorem claim5_emptyManifest (h : List Nat → List Nat) (workers : Nat)
    (root : GoPath) (stat : GoPath → Option Nat)
    (content : GoPath → Option (List Nat)) (hw : 0 < workers)
    (cs : List Nat) (hcontent : content (subPath root []) = some cs) :
    createModel h workers root stat content initialState =
      some (.ok ([], [])) := by
  have hok : ∀ fi ∈ [(⟨[], 0⟩ : FileEntry)], fileOk content root fi = true := by
    intro fi hfi
    simp only [List.mem_singleton] at hfi
    subst hfi
    rw [fileOk]
    simp [hcontent]
  have hsel : selectPieceLengthI 0 = 16384 := by
    rw [selectPieceLengthI]
    simpa using selectPieceLength_zero
  rw [createModel, createInfo, buildFromPathList]
  simp only [initialState, buildLoop, hsel, sortFiles, List.mergeSort_nil]
  simp only [upvertedFiles]
  norm_num
  rw [pool_ok content root [⟨[], 0⟩] workers hw hok]
  simp only [ne_eq, not_true_eq_false, if_neg, List.map_cons, List.map_nil,
    List.flatten_cons, List.flatten_nil, List.append_nil]
  rw [fileBytes]
  simp [hcontent, generatePieces_nil]

/-- Witness for C5 (amended) at a concrete root and pool size 1. -/
theorem claim5_witness :
    createModel (fun l => l) 1 ⟨true, [[109]]⟩ (fun _ => none)
        (fun p => if p = subPath ⟨true, [[109]]⟩ [] then some [] else none)
        initialState = some (.ok ([], [])) :=
  claim5_emptyManifest (fun l => l) 1 ⟨true, [[109]]⟩ (fun _ => none)
    (fun p => if p = subPath ⟨true, [[109]]⟩ [] then some [] else none)
    (by decide) [] (by simp)

/-! ## Byte-wise lexicographic order lemmas -/

theorem bytesLt_irrefl : ∀ a : List Nat, bytesLt a a = false := by
  intro a
  induction a with
  | nil => rfl
  | cons x xs ih => simp [bytesLt, ih]

theorem bytesLt_asymm : ∀ a b : List Nat,
    bytesLt a b = true → bytesLt b a = false := by
  intro a
  induction a with
  | nil =>
    intro b hb
    cases b with
    | nil => simp [bytesLt] at hb
    | cons y ys => rfl
  | cons x xs ih =>
    intro b hb
    cases b with
    | nil => simp [bytesLt] at hb
    | cons y ys =>
      by_cases hxy : x < y
      · simp [bytesLt, hxy, Nat.not_lt_of_lt hxy, Nat.ne_of_lt hxy]
      · by_cases hyx : y < x
        · simp [bytesLt, hxy, hyx] at hb
        · have heq : x = y := by omega
          subst heq
          simp [bytesLt, Nat.lt_irrefl] at hb ⊢
          exact ih ys hb

theorem bytesLt_trichotomy : ∀ a b : List Nat,
    bytesLt a b = true ∨ bytesLt b a = true ∨ a = b := by
  intro a
  induction a with
  | nil =>
    intro b
    cases b with
    | nil => right; right; rfl
    | cons y ys => left; rfl
  | cons x xs ih =>
    intro b
    cases b with
    | nil => right; left; rfl
    | cons y ys =>
      by_cases hxy : x < y
      · left; simp [bytesLt, hxy]
      · by_cases hyx : y < x
        · right; left; simp [bytesLt, hyx]
        · have hteq : x = y := by omega
          subst hteq
          rcases ih ys with h1 | h2 | h3
          · left; simp [bytesLt, Nat.lt_irrefl, h1]
          · right; left; simp [bytesLt, Nat.lt_irrefl, h2]
          · right; right; rw [h3]

theorem bytesLt_trans : ∀ a b c : List Nat,
    bytesLt a b = true → bytesLt b c = true → bytesLt a c = true := by
  intro a
  induction a with
  | nil =>
    intro b c hab hbc
    cases b with
    | nil => simp [bytesLt] at hab
    | cons y ys =>
      cases c with
      | nil => simp [bytesLt] at hbc
      | cons z zs => rfl
  | cons x xs ih =>
    intro b c hab hbc
    cases b with
    | nil => simp [bytesLt] at hab
    | cons y ys =>
      cases c with
      | nil => simp [bytesLt] at hbc
      | cons z zs =>
        simp only [bytesLt] at hab hbc ⊢
        by_cases hxy : x < y <;> by_cases hyz : y < z
        · simp [show x < z by omega]
        · simp only [if_pos hxy] at hab
          simp only [if_neg hyz] at hbc
          by_cases hzy : z < y
          · simp [hzy] at hbc
          · have : y = z := by omega
            subst this
            simp [hxy]
        · simp only [if_neg hxy] at hab
          by_cases hyx : y < x
          · simp [hyx] at hab
          · have : x = y := by omega
            subst this
            simp [hyz]
        · simp only [if_neg hxy] at hab
          simp only [if_neg hyz] at hbc
          by_cases hyx : y < x
          · simp [hyx] at hab
          · by_cases hzy : z < y
            · simp [hzy] at hbc
            · have h1 : x = y := by omega
              have h2 : y = z := by omega
              subst h1; subst h2
              simp only [if_neg (Nat.lt_irrefl x)] at hab hbc ⊢
              exact ih _ _ hab hbc

theorem entryLe_total (a b : FileEntry) : entryLe a b || entryLe b a := by
  rw [entryLe, entryLe]
  cases hab : bytesLt (entryKey b) (entryKey a) with
  | false => simp
  | true => simp [bytesLt_asymm _ _ hab]

theorem entryLe_trans (a b c : FileEntry) (hab : entryLe a b)
    (hbc : entryLe b c) : entryLe a c = true := by
  rw [entryLe] at hab hbc ⊢
  simp only [Bool.not_eq_true'] at hab hbc ⊢
  cases hca : bytesLt (entryKey c) (entryKey a) with
  | false => rfl
  | true =>
    exfalso
    rcases bytesLt_trichotomy (entryKey a) (entryKey b) with h1 | h1 | h1
    · have h2 := bytesLt_trans _ _ _ hca h1
      rw [h2] at hbc
      exact Bool.noConfusion hbc
    · rw [h1] at hab
      exact Bool.noConfusion hab
    · rw [h1] at hca
      rw [hca] at hbc
      exact Bool.noConfusion hbc

/-- The sort's `≤` holds exactly when the left key is byte-wise smaller or
the keys coincide. -/
theorem entryLe_iff (a b : FileEntry) : entryLe a b = true ↔
    (bytesLt (entryKey a) (entryKey b) = true ∨ entryKey a = entryKey b) := by
  rw [entryLe]
  simp only [Bool.not_eq_true']
  constructor
  · intro hba
    rcases bytesLt_trichotomy (entryKey a) (entryKey b) with h1 | h1 | h1
    · exact Or.inl h1
    · rw [h1] at hba
      cases hba
    · exact Or.inr h1
  · intro h1
    rcases h1 with h1 | h1
    · exact bytesLt_asymm _ _ h1
    · rw [h1]
      exact bytesLt_irrefl _

/-- Any two sorted permutations of each other agree when elements with equal
keys are equal (the relation `le` need not be antisymmetric globally). -/
theorem sorted_perm_eq_of_antisymmOn {α : Type} (le : α → α → Bool) :
    ∀ (l₁ l₂ : List α), l₁.Perm l₂ →
    l₁.Pairwise (fun a b => le a b = true) →
    l₂.Pairwise (fun a b => le a b = true) →
    (∀ a ∈ l₁, ∀ b ∈ l₁, le a b = true → le b a = true → a = b) →
    l₁ = l₂ := by
  intro l₁
  induction l₁ with
  | nil =>
    intro l₂ hp _ _ _
    exact (List.Perm.nil_eq hp).symm ▸ rfl
  | cons a t₁ ih =>
    intro l₂ hp hs₁ hs₂ hanti
    cases l₂ with
    | nil => exact absurd hp.symm (by simp)
    | cons b t₂ =>
      have hab : a = b := by
        have hamem : a ∈ b :: t₂ := hp.mem_iff.mp (by simp)
        have hbmem : b ∈ a :: t₁ := hp.symm.mem_iff.mp (by simp)
        rcases List.mem_cons.mp hamem with h1 | h1
        · exact h1
        · rcases List.mem_cons.mp hbmem with h2 | h2
          · exact h2.symm
          · have hle1 : le a b = true :=
              (List.pairwise_cons.mp hs₁).1 b h2
            have hle2 : le b a = true :=
              (List.pairwise_cons.mp hs₂).1 a h1
            exact hanti a (by simp) b (by simp [h2]) hle1 hle2
      subst hab
      have htail : t₁.Perm t₂ := hp.cons_inv
      have := ih t₂ htail (List.pairwise_cons.mp hs₁).2
        (List.pairwise_cons.mp hs₂).2
        (fun x hx y hy hxy hyx =>
          hanti x (by simp [hx]) y (by simp [hy]) hxy hyx)
      rw [this]

/-! ## Relative-path and build lemmas -/

theorem relSegs_append : ∀ (bs rest : List Seg), relSegs bs (bs ++ rest) = rest := by
  intro bs
  induction bs with
  | nil => intro rest; rfl
  | cons b bs ih =>
    intro rest
    show relSegs (b :: bs) (b :: (bs ++ rest)) = rest
    rw [relSegs]
    simp [ih]

theorem strictlyUnder_segs (root p : GoPath) (h : strictlyUnder root p) :
    p.segs = root.segs ++ p.segs.drop root.segs.length ∧
    p.segs.drop root.segs.length ≠ [] := by
  obtain ⟨_, htake, hlen⟩ := h
  constructor
  · conv_lhs => rw [← List.take_append_drop root.segs.length p.segs]
    rw [htake]
  · intro hc
    have := congrArg List.length hc
    simp only [List.length_drop, List.length_nil] at this
    omega

theorem goRel_strictlyUnder (root p : GoPath) (h : strictlyUnder root p) :
    goRel root p = some (p.segs.drop root.segs.length) := by
  rw [goRel, if_pos h.1.symm]
  congr 1
  conv_lhs => rw [(strictlyUnder_segs root p h).1]
  exact relSegs_append root.segs _

theorem strictlyUnder_ne_root (root p : GoPath) (h : strictlyUnder root p) :
    p ≠ root := by
  intro hc
  subst hc
  have := h.2.2
  omega

/-- The loop of `buildFromPathList` on ordinary in-tree files: every call
appends its relative entry with the `os.Stat` size, in order. -/
theorem buildLoop_ok (root : GoPath) (stat : GoPath → Option Nat) :
    ∀ (calls : List (GoPath × Int)) (info : InfoState),
    (∀ c ∈ calls, cleanCall root stat c) →
    buildLoop root stat calls info =
      .ok { info with files := info.files ++ calls.map (entryOf root stat) } := by
  intro calls
  induction calls with
  | nil =>
    intro info _
    simp [buildLoop]
  | cons c rest ih =>
    intro info hclean
    obtain ⟨p, szrec⟩ := c
    have hc := hclean (p, szrec) (by simp)
    obtain ⟨hunder, hstat, hsegs⟩ := hc
    obtain ⟨sz, hsz⟩ := Option.ne_none_iff_exists'.mp hstat
    simp only [buildLoop, hsz, if_neg (strictlyUnder_ne_root root p hunder),
      goRel_strictlyUnder root p hunder]
    rw [ih _ (fun c hc => hclean c (by simp [hc]))]
    simp [entryOf, hsz, List.append_assoc]

theorem addFiles_isSome (root : GoPath) : ∀ (calls : List (GoPath × Int))
    (st : TorrentState), (∀ c ∈ calls, root.abs = c.1.abs) →
    ∃ st', addFiles root st calls = some st' := by
  intro calls
  induction calls with
  | nil => intro st _; exact ⟨st, rfl⟩
  | cons c rest ih =>
    intro st habs
    obtain ⟨p, size⟩ := c
    have hrel : goRel root p = some (relSegs root.segs p.segs) := by
      rw [goRel, if_pos (habs (p, size) (by simp))]
    obtain ⟨st', hst'⟩ := ih
      { totalFileSizeBytes := st.totalFileSizeBytes + size
        paths := mapInsert st.paths (relSegs root.segs p.segs) size
        files := st.files ++ [(p, size)] }
      (fun c hc => habs c (by simp [hc]))
    exact ⟨st', by rw [addFiles, addFile, hrel]; exact hst'⟩

theorem addFiles_files (root : GoPath) : ∀ (calls : List (GoPath × Int))
    (st st' : TorrentState), addFiles root st calls = some st' →
    st'.files = st.files ++ calls := by
  intro calls
  induction calls with
  | nil =>
    intro st st' hadd
    simp only [addFiles] at hadd
    cases hadd
    simp
  | cons c rest ih =>
    intro st st' hadd
    obtain ⟨p, size⟩ := c
    simp only [addFiles] at hadd
    cases hrel : goRel root p with
    | none => rw [addFile, hrel] at hadd; cases hadd
    | some r =>
      rw [addFile_some root st p size r hrel] at hadd
      rw [ih _ _ hadd]
      simp

/-- Two entries with `entryLe` in both directions have equal keys. -/
theorem entryKey_eq_of_le_le (a b : FileEntry) (hab : entryLe a b)
    (hba : entryLe b a) : entryKey a = entryKey b := by
  rcases (entryLe_iff a b).mp hab with h1 | h1
  · rcases (entryLe_iff b a).mp hba with h2 | h2
    · have := bytesLt_asymm _ _ h1
      rw [h2] at this
      exact Bool.noConfusion this
    · exact h2.symm
  · exact h1

/-- Entries produced from clean calls with equal sort keys are equal: the
joined relative path determines the segment list (no segment contains `/`),
hence the absolute path, hence the `os.Stat` size. -/
theorem entryOf_inj (root : GoPath) (stat : GoPath → Option Nat)
    (c1 c2 : GoPath × Int) (h1 : cleanCall root stat c1)
    (h2 : cleanCall root stat c2)
    (hkey : entryKey (entryOf root stat c1) = entryKey (entryOf root stat c2)) :
    entryOf root stat c1 = entryOf root stat c2 := by
  have e1 : (List.intercalate [(47 : Nat)]
        (c1.1.segs.drop root.segs.length)).splitOn 47 =
      c1.1.segs.drop root.segs.length :=
    List.splitOn_intercalate _ (47 : Nat)
      (fun l hl => h1.2.2 l (List.mem_of_mem_drop hl))
      (strictlyUnder_segs root c1.1 h1.1).2
  have e2 : (List.intercalate [(47 : Nat)]
        (c2.1.segs.drop root.segs.length)).splitOn 47 =
      c2.1.segs.drop root.segs.length :=
    List.splitOn_intercalate _ (47 : Nat)
      (fun l hl => h2.2.2 l (List.mem_of_mem_drop hl))
      (strictlyUnder_segs root c2.1 h2.1).2
  have hkey' : List.intercalate [(47 : Nat)] (c1.1.segs.drop root.segs.length) =
      List.intercalate [(47 : Nat)] (c2.1.segs.drop root.segs.length) := hkey
  have hpath : c1.1.segs.drop root.segs.length =
      c2.1.segs.drop root.segs.length := by
    rw [← e1, ← e2, hkey']
  have hsegs : c1.1.segs = c2.1.segs := by
    conv_lhs => rw [(strictlyUnder_segs root c1.1 h1.1).1]
    conv_rhs => rw [(strictlyUnder_segs root c2.1 h2.1).1]
    rw [hpath]
  have habs : c1.1.abs = c2.1.abs := by rw [h1.1.1, h2.1.1]
  have hp : c1.1 = c2.1 := by
    calc c1.1 = ⟨c1.1.abs, c1.1.segs⟩ := rfl
    _ = ⟨c2.1.abs, c2.1.segs⟩ := by rw [habs, hsegs]
    _ = c2.1 := rfl
  rw [entryOf, entryOf, hp]

theorem sortFiles_sorted (fs : List FileEntry) :
    (sortFiles fs).Pairwise (fun a b => entryLe a b = true) := by
  have := List.sorted_mergeSort
    (fun a b c hab hbc => entryLe_trans a b c hab hbc)
    (fun a b => entryLe_total a b)
    fs
  simpa [sortFiles] using this

theorem sortFiles_perm (fs : List FileEntry) : (sortFiles fs).Perm fs :=
  List.mergeSort_perm fs entryLe

/-- Sorting is a function of the multiset when key-equal elements are
equal: any comparison sort of either permutation yields this one list. -/
theorem sortFiles_perm_eq (fs1 fs2 : List FileEntry) (hp : fs1.Perm fs2)
    (hanti : ∀ a ∈ fs1, ∀ b ∈ fs1,
      entryLe a b = true → entryLe b a = true → a = b) :
    sortFiles fs1 = sortFiles fs2 := by
  refine sorted_perm_eq_of_antisymmOn entryLe _ _
    ((sortFiles_perm fs1).trans (hp.trans (sortFiles_perm fs2).symm))
    (sortFiles_sorted fs1) (sortFiles_sorted fs2) ?_
  intro a ha b hb hab hba
  exact hanti a ((sortFiles_perm fs1).mem_iff.mp ha)
    b ((sortFiles_perm fs1).mem_iff.mp hb) hab hba

/-! ## Claim C3 — finalized order and insertion-order irrelevance -/

unseal pieceLoop List.merge List.mergeSort in
/-- Counterexample to C3 as stated: when one `AddFile` call passes the root
path itself, `buildFromPathList` hits its single-file branch (`path ==
tf.root`), sets `info.Length` and returns early, keeping exactly the
entries appended so far — so insertion order changes the finalized list.
Adding `[root, root/b]` finalizes to the empty file list, while adding
`[root/b, root]` finalizes to `[b]`, although the two call sequences are
permutations of each other. -/
theorem claim3_counterexample :
    addFiles ⟨true, [[109]]⟩ initialState
        [(⟨true, [[109]]⟩, 1), (⟨true, [[109], [98]]⟩, 1)] =
      some ⟨2, [([], 1), ([[98]], 1)],
        [(⟨true, [[109]]⟩, 1), (⟨true, [[109], [98]]⟩, 1)]⟩ ∧
    addFiles ⟨true, [[109]]⟩ initialState
        [(⟨true, [[109], [98]]⟩, 1), (⟨true, [[109]]⟩, 1)] =
      some ⟨2, [([[98]], 1), ([], 1)],
        [(⟨true, [[109], [98]]⟩, 1), (⟨true, [[109]]⟩, 1)]⟩ ∧
    List.Perm [((⟨true, [[109]]⟩ : GoPath), (1 : Int)),
        (⟨true, [[109], [98]]⟩, 1)]
      [(⟨true, [[109], [98]]⟩, 1), (⟨true, [[109]]⟩, 1)] ∧
    finalizedList ⟨true, [[109]]⟩
        (fun p => if p = ⟨true, [[109]]⟩ then some 1
          else if p = ⟨true, [[109], [98]]⟩ then some 1 else none)
        ⟨2, [([], 1), ([[98]], 1)],
          [(⟨true, [[109]]⟩, 1), (⟨true, [[109], [98]]⟩, 1)]⟩ = .ok [] ∧
    finalizedList ⟨true, [[109]]⟩
        (fun p => if p = ⟨true, [[109]]⟩ then some 1
          else if p = ⟨true, [[109], [98]]⟩ then some 1 else none)
        ⟨2, [([[98]], 1), ([], 1)],
          [(⟨true, [[109], [98]]⟩, 1), (⟨true, [[109]]⟩, 1)]⟩ =
      .ok [⟨[[98]], 1⟩] :=
  ⟨by decide, by decide, List.Perm.swap _ _ [], by rfl, by rfl⟩

/-- C3 as amended: provided every added path is an ordinary file strictly
inside the root (in particular no call passes the root path itself, which
would trigger the single-file early return of the counterexample), is
present on disk, and has `/`-free segments, the finalized file list is
sorted ascending byte-wise by relative path, and the order of the `addFile`
calls has no effect on the finalized list nor on anything `Create` derives
from it (piece hashes, serialized info, magnet identifier), for every
worker count and disk content. -/
theorem claim3_sortedOrderIrrelevant (h : List Nat → List Nat)
    (workers : Nat) (root : GoPath) (stat : GoPath → Option Nat)
    (content : GoPath → Option (List Nat))
    (calls1 calls2 : List (GoPath × Int)) (hperm : calls1.Perm calls2)
    (hgood : ∀ c ∈ calls1, cleanCall root stat c) :
    ∃ st1 st2, addFiles root initialState calls1 = some st1 ∧
      addFiles root initialState calls2 = some st2 ∧
      finalizedList root stat st1 = finalizedList root stat st2 ∧
      (∀ fs, finalizedList root stat st1 = Except.ok fs →
        ascendingByPath fs) ∧
      createModel h workers root stat content st1 =
        createModel h workers root stat content st2 := by
  have hgood2 : ∀ c ∈ calls2, cleanCall root stat c :=
    fun c hc => hgood c (hperm.mem_iff.mpr hc)
  obtain ⟨st1, h1⟩ := addFiles_isSome root calls1 initialState
    (fun c hc => ((hgood c hc).1.1).symm)
  obtain ⟨st2, h2⟩ := addFiles_isSome root calls2 initialState
    (fun c hc => ((hgood2 c hc).1.1).symm)
  have hf1 : st1.files = calls1 := by
    have := addFiles_files root calls1 initialState st1 h1
    simpa [initialState] using this
  have hf2 : st2.files = calls2 := by
    have := addFiles_files root calls2 initialState st2 h2
    simpa [initialState] using this
  have htot : st1.totalFileSizeBytes = st2.totalFileSizeBytes := by
    rw [(addFiles_invariant root calls1 initialState st1 h1).2,
      (addFiles_invariant root calls2 initialState st2 h2).2]
    exact congrArg _ (hperm.map Prod.snd).sum_eq
  have hsort : sortFiles (calls1.map (entryOf root stat)) =
      sortFiles (calls2.map (entryOf root stat)) := by
    apply sortFiles_perm_eq _ _ (hperm.map _)
    intro a ha b hb hab hba
    obtain ⟨ca, hca, rfl⟩ := List.mem_map.mp ha
    obtain ⟨cb, hcb, rfl⟩ := List.mem_map.mp hb
    exact entryOf_inj root stat ca cb (hgood ca hca) (hgood cb hcb)
      (entryKey_eq_of_le_le _ _ hab hba)
  have e1 : createInfo root stat st1 =
      .ok ⟨torrentFsBase, selectPieceLengthI st1.totalFileSizeBytes, 0,
        sortFiles (calls1.map (entryOf root stat)), true⟩ := by
    rw [createInfo, buildFromPathList, hf1,
      buildLoop_ok root stat calls1 _ hgood]
    simp
  have e2 : createInfo root stat st2 =
      .ok ⟨torrentFsBase, selectPieceLengthI st2.totalFileSizeBytes, 0,
        sortFiles (calls2.map (entryOf root stat)), true⟩ := by
    rw [createInfo, buildFromPathList, hf2,
      buildLoop_ok root stat calls2 _ hgood2]
    simp
  have hci : createInfo root stat st1 = createInfo root stat st2 := by
    rw [e1, e2, htot, hsort]
  refine ⟨st1, st2, h1, h2, ?_, ?_, ?_⟩
  · rw [finalizedList, finalizedList, hci]
  · intro fs hfs
    rw [finalizedList, e1] at hfs
    simp only [Except.map] at hfs
    cases hfs
    exact List.Pairwise.imp (fun hab => (entryLe_iff _ _).mp hab)
      (sortFiles_sorted _)
  · rw [createModel, createModel, hci]

/-- Witness for C3 (amended) at two in-tree files added in both orders. -/
theorem claim3_witness :
    ∃ st1 st2, addFiles ⟨true, [[109]]⟩ initialState
        [(⟨true, [[109], [98]]⟩, 3), (⟨true, [[109], [97]]⟩, 2)] = some st1 ∧
      addFiles ⟨true, [[109]]⟩ initialState
        [(⟨true, [[109], [97]]⟩, 2), (⟨true, [[109], [98]]⟩, 3)] = some st2 ∧
      finalizedList ⟨true, [[109]]⟩
          (fun p => if p = ⟨true, [[109], [97]]⟩ then some 2
            else if p = ⟨true, [[109], [98]]⟩ then some 3 else none) st1 =
        finalizedList ⟨true, [[109]]⟩
          (fun p => if p = ⟨true, [[109], [97]]⟩ then some 2
            else if p = ⟨true, [[109], [98]]⟩ then some 3 else none) st2 ∧
      (∀ fs, finalizedList ⟨true, [[109]]⟩
          (fun p => if p = ⟨true, [[109], [97]]⟩ then some 2
            else if p = ⟨true, [[109], [98]]⟩ then some 3 else none) st1 =
          Except.ok fs → ascendingByPath fs) ∧
      createModel (fun l => l) 1 ⟨true, [[109]]⟩
          (fun p => if p = ⟨true, [[109], [97]]⟩ then some 2
            else if p = ⟨true, [[109], [98]]⟩ then some 3 else none)
          (fun _ => none) st1 =
        createModel (fun l => l) 1 ⟨true, [[109]]⟩
          (fun p => if p = ⟨true, [[109], [97]]⟩ then some 2
            else if p = ⟨true, [[109], [98]]⟩ then some 3 else none)
          (fun _ => none) st2 :=
  claim3_sortedOrderIrrelevant (fun l => l) 1 ⟨true, [[109]]⟩
    (fun p => if p = ⟨true, [[109], [97]]⟩ then some 2
      else if p = ⟨true, [[109], [98]]⟩ then some 3 else none)
    (fun _ => none)
    [(⟨true, [[109], [98]]⟩, 3), (⟨true, [[109], [97]]⟩, 2)]
    [(⟨true, [[109], [97]]⟩, 2), (⟨true, [[109], [98]]⟩, 3)]
    (List.Perm.swap _ _ []) (by decide)

end Milkdud
